import Mathlib

/-!
Shallow embedding of the document-structuring core of `mcp_embedded_docs`
(`ingestion/chunker.py` and `ingestion/table_detector.py`), with proofs of
the chunking and table-detection properties stated in the specification.

Strings are modelled as `List Char`.  Python string slicing, `str.strip`,
`str.rfind`, `str.lower`, `str.title` and the regular expression
`(?<=[.!?])\s+|\n\n+` (used through `re.finditer`, including its
`pos`/`endpos` form) are embedded explicitly.  The call
`hashlib.md5(...).hexdigest()` is abstracted as a parameter
`hexd : List Char → List Char`, since `hashlib` is an external library;
no property proved here depends on the concrete hash function.
-/

namespace Mcp

/-- Python `\s` on ASCII text: the whitespace characters recognized by
`str.strip` and by the `\s` character class. -/
def pyIsSpace (c : Char) : Bool :=
  c == ' ' || c == '\t' || c == '\n' || c == '\r' || c == '\x0b' || c == '\x0c'

/-- Python `str.strip()`: drop leading and trailing whitespace. -/
def pyStrip (l : List Char) : List Char :=
  (((l.dropWhile pyIsSpace).reverse).dropWhile pyIsSpace).reverse

/-- Python slicing `s[a:b]` for `0 ≤ a, b` (as used in the chunker). -/
def listSlice (l : List Char) (a b : Nat) : List Char :=
  (l.drop a).take (b - a)

/-- Helper for `pyRfindSpace`: the greatest index `st + k' < st + k` whose
character is a space, scanning downward. -/
def rfindSpaceGo (content : List Char) (st : Nat) : Nat → Option Nat
  | 0 => none
  | k + 1 =>
    if content.get? (st + k) = some ' ' then some (st + k)
    else rfindSpaceGo content st k

/-- Python `content.rfind(' ', st, en)`: the greatest index of a space
character in `[st, en)`, with `none` playing the role of `-1`. -/
def pyRfindSpace (content : List Char) (st en : Nat) : Option Nat :=
  rfindSpaceGo content st (en - st)

/-- Lookbehind test of the regex `(?<=[.!?])`: the preceding character is a
sentence-ending punctuation mark. -/
def alt1Ok : Option Char → Bool
  | some p => p == '.' || p == '!' || p == '?'
  | none => false

/-- Length of the maximal whitespace run at the front of `l`, capped by the
remaining distance to `endpos` (greedy `\s+` under `re`'s `endpos`). -/
def wsRun : Nat → List Char → Nat
  | 0, _ => 0
  | _, [] => 0
  | cap + 1, c :: cs => if pyIsSpace c then wsRun cap cs + 1 else 0

/-- Length of the maximal newline run at the front of `l`, capped by the
remaining distance to `endpos` (greedy `\n+` under `re`'s `endpos`). -/
def nlRun : Nat → List Char → Nat
  | 0, _ => 0
  | _, [] => 0
  | cap + 1, c :: cs => if c == '\n' then nlRun cap cs + 1 else 0

/-- One match attempt of `(?<=[.!?])\s+|\n\n+` at the current position:
`prev` is the character before the position (visible to the lookbehind even
below `pos`), `rest` the text from the position on, `cap` the number of
characters before `endpos`.  Python tries the left alternative first. -/
def matchCombined (prev : Option Char) (rest : List Char) (cap : Nat) : Option Nat :=
  match rest, cap with
  | c :: cs, capp + 1 =>
    if alt1Ok prev && pyIsSpace c then some (wsRun (capp + 1) (c :: cs))
    else
      match cs, capp with
      | d :: _, _ + 1 =>
        if c == '\n' && d == '\n' then some (nlRun (capp + 1) (c :: cs)) else none
      | _, _ => none
  | _, _ => none

/-- One match attempt of the fallback pattern `\n\n+`. -/
def matchNN (_prev : Option Char) (rest : List Char) (cap : Nat) : Option Nat :=
  match rest, cap with
  | c :: cs, capp + 1 =>
    match cs, capp with
    | d :: _, _ + 1 =>
      if c == '\n' && d == '\n' then some (nlRun (capp + 1) (c :: cs)) else none
    | _, _ => none
  | _, _ => none

/-- The scan loop of `re.finditer`, advancing one character per step:
`prev` is the character before the current position, `pos` the position,
`cap` the number of characters before `endpos`, and `skip` the number of
positions still covered by the previous match (matching resumes only after
it, since `re` matches never overlap).  On a fresh match of length
`len ≥ 1` emit `(pos, pos + len)` and skip the next `len - 1` positions;
our patterns never match the empty string (a zero-length match stops the
scan, an unreachable safeguard).  Returns the `(m.start(), m.end())`
pairs. -/
def finditerSkip (m : Option Char → List Char → Nat → Option Nat) :
    Option Char → List Char → Nat → Nat → Nat → List (Nat × Nat)
  | _, [], _, _, _ => []
  | prev, c :: cs, pos, cap, skip =>
    match skip with
    | s + 1 => finditerSkip m (some c) cs (pos + 1) (cap - 1) s
    | 0 =>
      match cap with
      | 0 => []
      | _ + 1 =>
        match m prev (c :: cs) cap with
        | some 0 => []
        | some (l + 1) =>
            (pos, pos + (l + 1)) :: finditerSkip m (some c) cs (pos + 1) (cap - 1) l
        | none => finditerSkip m (some c) cs (pos + 1) (cap - 1) 0

/-- The scan of `re.finditer` from a starting position with no pending
match. -/
def finditerFrom (m : Option Char → List Char → Nat → Option Nat)
    (prev : Option Char) (rest : List Char) (pos cap : Nat) : List (Nat × Nat) :=
  finditerSkip m prev rest pos cap 0

/-- The character just before `pos` in `content`: what the lookbehind of the
regex sees when `re.finditer` is given a starting position `pos` (Python's
`pos` does not hide the text before it from lookbehinds). -/
def prevAt (content : List Char) (pos : Nat) : Option Char :=
  if pos = 0 then none else content.get? (pos - 1)

/-- Model of `_SENTENCE_BOUNDARY_RE.finditer(content, pos, endpos)`. -/
def finditerRegion (content : List Char) (pos endpos : Nat) : List (Nat × Nat) :=
  finditerFrom matchCombined (prevAt content pos) (content.drop pos) pos (endpos - pos)

/-- Model of `SemanticChunker._find_sentence_boundaries`: the `m.end()`
offsets of all matches of the sentence-boundary pattern over the text. -/
def find_sentence_boundaries (content : List Char) : List Nat :=
  (finditerRegion content 0 content.length).map Prod.snd

/-- Model of the fallback `[m.end() for m in re.finditer(r'\n\n+', content)]`
in `_split_section`. -/
def fallbackBoundaries (content : List Char) : List Nat :=
  (finditerFrom matchNN none content 0 content.length).map Prod.snd

/-- The boundary list actually used by the splitting loop: the sentence
boundaries, or on an empty result the double-newline fallback. -/
def effectiveBoundaries (content : List Char) : List Nat :=
  let bs := find_sentence_boundaries content
  if bs = [] then fallbackBoundaries content else bs

/-- Configuration of `SemanticChunker` (`target_size`, `overlap`,
`preserve_tables`). -/
structure Chunker where
  targetSize : Nat
  overlap : Nat
  preserveTables : Bool

/-- The `best` scan of `_split_section`: the last boundary `b` in list order
with `start < b ≤ e`, stopping at the first boundary beyond `e`. -/
def findBestAux : List Nat → Nat → Nat → Option Nat → Option Nat
  | [], _, _, best => best
  | b :: bs, s, e, best =>
    if b ≤ s then findBestAux bs s e best
    else if b ≤ e then findBestAux bs s e (some b)
    else best

/-- The chunk-end decision of one `_split_section` iteration: take the full
remainder when it fits the budget, otherwise the last boundary in
`(start, start+budget]`, otherwise back up to just after the last space,
otherwise cut at the raw budget. -/
def splitEnd (budget : Nat) (content : List Char) (bnds : List Nat) (start : Nat) : Nat :=
  let e0 := start + budget
  if content.length ≤ e0 then content.length
  else
    match findBestAux bnds start e0 none with
    | some b => b
    | none =>
      match pyRfindSpace content start e0 with
      | some p => if start < p then p + 1 else e0
      | none => e0

/-- Model of `SemanticChunker._compute_overlap_start`: the second-to-last
(or the single) sentence boundary within the last `overlap` characters of
the chunk, or `chunk_end` when there is none. -/
def compute_overlap_start (ovl : Nat) (content : List Char) (chunkStart chunkEnd : Nat) : Nat :=
  let regionStart := max chunkStart (chunkEnd - ovl)
  let bs := (finditerRegion content regionStart chunkEnd).map Prod.snd
  match bs.reverse with
  | [] => chunkEnd
  | [b] => b
  | _ :: b2 :: _ => b2

/-- The next `start` of the splitting loop:
`start = overlap_start if overlap_start < end else end`. -/
def nextStartFn (ovl : Nat) (content : List Char) (start e : Nat) : Nat :=
  let ov := compute_overlap_start ovl content start e
  if ov < e then ov else e

/-- The `while start < len(content)` loop of `_split_section`, recorded as
the list of `(start, end)` pairs of its iterations.  `fuel` bounds the
number of iterations; `none` means the loop did not finish within `fuel`
iterations (the Python loop has no syntactic termination guarantee). -/
def splitSegs (budget ovl : Nat) (content : List Char) (bnds : List Nat)
    (fuel start : Nat) : Option (List (Nat × Nat)) :=
  if start < content.length then
    match fuel with
    | 0 => none
    | f + 1 =>
      (splitSegs budget ovl content bnds f
          (nextStartFn ovl content start (splitEnd budget content bnds start))).map
        (fun segs => (start, splitEnd budget content bnds start) :: segs)
  else some []

/-- Table kinds: the `TableType` enum of `table_detector.py`. -/
inductive TableType where
  | registerMap
  | bitfieldDefinition
  | memoryMap
  | other
deriving DecidableEq

/-- Python `.value` of the `TableType` enum members. -/
def TableType.value : TableType → List Char
  | registerMap => "register_map".data
  | bitfieldDefinition => "bitfield_definition".data
  | memoryMap => "memory_map".data
  | other => "other".data

/-- Modelled from the spec: the `Field` record of the external
`table_extractor.py` (absent from the sources): name, bits, bit_range and
access strings plus optional description and reset_value (spec §3/§6). -/
structure RegField where
  name : List Char
  bits : List Char
  bitRange : List Char
  access : List Char
  description : Option (List Char)
  resetValue : Option (List Char)
deriving DecidableEq

/-- Modelled from the spec: the `Register` record of the external
`table_extractor.py` (absent from the sources): name, optional
address/offset/reset_value/description, integer width, access string and
field list (spec §3/§6). -/
structure Register where
  name : List Char
  address : Option (List Char)
  offset : Option (List Char)
  width : Int
  resetValue : Option (List Char)
  access : List Char
  description : Option (List Char)
  fields : List RegField
deriving DecidableEq

/-- Modelled from the spec: the `RegisterTable` record of the external
`table_extractor.py` (absent from the sources): peripheral and context
strings, a `TableType` and the register list (spec §3/§6). -/
structure RegisterTable where
  peripheral : List Char
  context : List Char
  tableType : TableType
  registers : List Register
deriving DecidableEq

/-- Modelled from the spec: the `Section` record of the external
`pdf_parser.py` (absent from the sources): title, level, content, page
bounds and the owned subsection list (spec §3/§6). -/
inductive DocSection where
  | mk (title : List Char) (level : Int) (content : List Char)
      (startPage endPage : Int) (subsections : List DocSection)

def DocSection.title : DocSection → List Char
  | .mk t _ _ _ _ _ => t

def DocSection.level : DocSection → Int
  | .mk _ lv _ _ _ _ => lv

def DocSection.content : DocSection → List Char
  | .mk _ _ c _ _ _ => c

def DocSection.startPage : DocSection → Int
  | .mk _ _ _ sp _ _ => sp

def DocSection.endPage : DocSection → Int
  | .mk _ _ _ _ ep _ => ep

def DocSection.subsections : DocSection → List DocSection
  | .mk _ _ _ _ _ subs => subs

/-- Python truthiness of an optional string: `None` and `""` are falsy. -/
def optTruthy : Option (List Char) → Bool
  | none => false
  | some s => !s.isEmpty

/-- Python f-string rendering of an optional string (`None` prints as the
text `None`). -/
def pyStr : Option (List Char) → List Char
  | none => "None".data
  | some s => s

/-- Python `str.title()` on ASCII text: a letter is uppercased after a
non-letter and lowercased otherwise. -/
def pyTitleGo : Bool → List Char → List Char
  | _, [] => []
  | prevAlpha, c :: cs =>
    (if c.isAlpha then (if prevAlpha then c.toLower else c.toUpper) else c) ::
      pyTitleGo c.isAlpha cs

def pyTitle (l : List Char) : List Char := pyTitleGo false l

/-- Python `.replace('_', ' ')`. -/
def replaceUnderscores (l : List Char) : List Char :=
  l.map (fun c => if c = '_' then ' ' else c)

/-- The pipe-joined per-register detail line of `_format_table_as_text`:
Address | Offset | Width | Reset | Access in that fixed order, the
optional segments present only when the field is truthy. -/
def detailLine (r : Register) : List Char :=
  List.intercalate " | ".data
    ((if optTruthy r.address then ["Address: ".data ++ r.address.getD []] else []) ++
     (if optTruthy r.offset then ["Offset: ".data ++ r.offset.getD []] else []) ++
     ["Width: ".data ++ (toString r.width).data ++ "-bit".data] ++
     (if optTruthy r.resetValue then ["Reset: ".data ++ r.resetValue.getD []] else []) ++
     ["Access: ".data ++ r.access])

/-- One `  - name [bits]: description (access)` line of the Fields block. -/
def fieldLine (f : RegField) : List Char :=
  "  - ".data ++ f.name ++ " [".data ++ f.bits ++ "]: ".data ++ pyStr f.description ++
    " (".data ++ f.access ++ ")".data

/-- The lines appended to the output for one register. -/
def regLines (r : Register) : List (List Char) :=
  ["## ".data ++ r.name, detailLine r] ++
  (if optTruthy r.description then ["Description: ".data ++ r.description.getD []] else []) ++
  (if r.fields.isEmpty then [] else "\nFields:".data :: r.fields.map fieldLine) ++
  [[]]

/-- All lines accumulated by `_format_table_as_text` before the final join. -/
def tableLines (t : RegisterTable) : List (List Char) :=
  ["# ".data ++ t.peripheral ++ " - ".data ++ pyTitle (replaceUnderscores t.tableType.value),
   []] ++
  (if t.context.isEmpty then [] else ["Context: ".data ++ t.context, []]) ++
  t.registers.flatMap regLines

/-- Model of `SemanticChunker._format_table_as_text`. -/
def format_table_as_text (t : RegisterTable) : List Char :=
  List.intercalate "\n".data (tableLines t)

/-- Mirror of the field dictionary built by `_format_table_as_json`. -/
structure FieldJson where
  name : List Char
  bits : List Char
  bitRange : List Char
  access : List Char
  description : Option (List Char)
  resetValue : Option (List Char)
deriving DecidableEq

/-- Mirror of the register dictionary built by `_format_table_as_json`. -/
structure RegisterJson where
  name : List Char
  address : Option (List Char)
  offset : Option (List Char)
  width : Int
  resetValue : Option (List Char)
  access : List Char
  description : Option (List Char)
  fields : List FieldJson
deriving DecidableEq

/-- Mirror of the table dictionary built by `_format_table_as_json`. -/
structure TableJson where
  peripheral : List Char
  tableType : List Char
  context : List Char
  registers : List RegisterJson
deriving DecidableEq

/-- Model of `SemanticChunker._format_table_as_json`: the structured record
mirroring the table verbatim. -/
def format_table_as_json (t : RegisterTable) : TableJson :=
  { peripheral := t.peripheral
    tableType := t.tableType.value
    context := t.context
    registers := t.registers.map (fun r =>
      { name := r.name, address := r.address, offset := r.offset, width := r.width,
        resetValue := r.resetValue, access := r.access, description := r.description,
        fields := r.fields.map (fun f =>
          { name := f.name, bits := f.bits, bitRange := f.bitRange,
            access := f.access, description := f.description,
            resetValue := f.resetValue }) }) }

/-- The `metadata` dictionary attached to a chunk. -/
inductive ChunkMeta where
  | table (peripheral : List Char) (tableType : List Char) (context : List Char)
      (registerNames : List (List Char))
  | text (sectionTitle : List Char) (sectionLevel : Int)
deriving DecidableEq

/-- The `Chunk` dataclass of `chunker.py`. -/
structure Chunk where
  id : List Char
  docId : List Char
  chunkType : List Char
  text : List Char
  structuredData : Option TableJson
  metadata : ChunkMeta
  pageStart : Int
  pageEnd : Int
deriving DecidableEq

/-- Chunk-id construction `f"{doc_id}_{md5(text.encode()).hexdigest()[:12]}"`,
with the hex digest abstracted as `hexd`. -/
def chunkIdOf (hexd : List Char → List Char) (docId text : List Char) : List Char :=
  docId ++ '_' :: (hexd text).take 12

/-- Model of `SemanticChunker._build_context_prefix`. -/
def build_context_pfx (docTitle : List Char) (hierarchy : List (List Char)) : List Char :=
  let parts :=
    (if docTitle.isEmpty then [] else [docTitle]) ++ hierarchy.filter (fun h => !h.isEmpty)
  if parts.isEmpty then []
  else '[' :: (List.intercalate " > ".data parts ++ "]\n".data)

/-- The chunk built for one register table: hierarchy from peripheral and
context, contextual prefix, text plus structured form, content-hash id and
the page from `table_pages.get(i, 0)`. -/
def mkTableChunk (hexd : List Char → List Char) (docId docTitle : List Char)
    (tablePages : Nat → Option Int) (i : Nat) (t : RegisterTable) : Chunk :=
  let hierarchy := (if t.peripheral.isEmpty then [] else [t.peripheral]) ++
    (if t.context.isEmpty then [] else [t.context])
  let pfx := build_context_pfx docTitle hierarchy
  let text := pfx ++ format_table_as_text t
  { id := chunkIdOf hexd docId text
    docId := docId
    chunkType := t.tableType.value
    text := text
    structuredData := some (format_table_as_json t)
    metadata := .table t.peripheral t.tableType.value t.context (t.registers.map Register.name)
    pageStart := (tablePages i).getD 0
    pageEnd := (tablePages i).getD 0 }

/-- The enumerated loop of `_chunk_tables`. -/
def chunkTablesAux (hexd : List Char → List Char) (docId docTitle : List Char)
    (tablePages : Nat → Option Int) : Nat → List RegisterTable → List Chunk
  | _, [] => []
  | i, t :: ts =>
    mkTableChunk hexd docId docTitle tablePages i t ::
      chunkTablesAux hexd docId docTitle tablePages (i + 1) ts

/-- Model of `SemanticChunker._chunk_tables`. -/
def chunk_tables (hexd : List Char → List Char) (docId docTitle : List Char)
    (tablePages : Nat → Option Int) (tables : List RegisterTable) : List Chunk :=
  chunkTablesAux hexd docId docTitle tablePages 0 tables

/-- The chunk emitted for one `(start, end)` iteration of the splitting
loop, or `none` when the prefixed text strips to empty and is dropped. -/
def segChunk (hexd : List Char → List Char) (docId secTitle : List Char)
    (secLevel sp ep : Int) (pfx content : List Char) (seg : Nat × Nat) : Option Chunk :=
  let text := pfx ++ pyStrip (listSlice content seg.1 seg.2)
  if (pyStrip text).isEmpty then none
  else some
    { id := chunkIdOf hexd docId text
      docId := docId
      chunkType := "text".data
      text := text
      structuredData := none
      metadata := .text secTitle secLevel
      pageStart := sp
      pageEnd := ep }

/-- Model of `SemanticChunker._split_section` with an explicit iteration
bound `fuel`: run the splitting loop and keep the chunks of the iterations
whose stripped text is non-empty. -/
def splitSectionFuel (cfg : Chunker) (hexd : List Char → List Char) (docId : List Char)
    (sec : DocSection) (pfx : List Char) (fuel : Nat) : Option (List Chunk) :=
  let content := pyStrip sec.content
  (splitSegs (cfg.targetSize - pfx.length) cfg.overlap content (effectiveBoundaries content)
      fuel 0).map
    (List.filterMap (segChunk hexd docId sec.title sec.level sec.startPage sec.endPage pfx content))

/-- Model of `SemanticChunker._split_section`: the loop advances `start` at
every completed iteration, so `len(content) + 1` iterations always suffice
when the loop terminates at all. -/
def split_section (cfg : Chunker) (hexd : List Char → List Char) (docId : List Char)
    (sec : DocSection) (pfx : List Char) : Option (List Chunk) :=
  splitSectionFuel cfg hexd docId sec pfx ((pyStrip sec.content).length + 1)

/-- The single chunk emitted for a leaf section that fits the target size. -/
def mkLeafChunk (hexd : List Char → List Char) (docId : List Char) (sec : DocSection)
    (text : List Char) : Chunk :=
  { id := chunkIdOf hexd docId text
    docId := docId
    chunkType := "text".data
    text := text
    structuredData := none
    metadata := .text sec.title sec.level
    pageStart := sec.startPage
    pageEnd := sec.endPage }

/-- The leaf-section branch of `_chunk_sections`: skip empty content, emit a
single chunk when prefix+content fit the target size, else split. -/
def leafChunks (cfg : Chunker) (hexd : List Char → List Char) (docId docTitle : List Char)
    (hier : List (List Char)) (sec : DocSection) : Option (List Chunk) :=
  let pfx := build_context_pfx docTitle hier
  let content := pyStrip sec.content
  if content.isEmpty then some []
  else if pfx.length + content.length ≤ cfg.targetSize then
    some [mkLeafChunk hexd docId sec (pfx ++ content)]
  else split_section cfg hexd docId sec pfx

/-- Concatenation on the `Option`-valued chunk lists (propagating a
non-terminating splitter). -/
def optAppend {α : Type} : Option (List α) → Option (List α) → Option (List α)
  | some a, some b => some (a ++ b)
  | _, _ => none

/-- Model of `SemanticChunker._chunk_sections`: recursive descent with the
accumulated ancestor titles; non-leaf sections only recurse, leaf sections
are chunked. -/
def chunk_sections (cfg : Chunker) (hexd : List Char → List Char) (docId docTitle : List Char) :
    List (List Char) → List DocSection → Option (List Chunk)
  | _, [] => some []
  | anc, DocSection.mk t lv c sp ep subs :: rest =>
    optAppend
      (if subs.isEmpty then
        leafChunks cfg hexd docId docTitle (anc ++ [t]) (DocSection.mk t lv c sp ep subs)
      else chunk_sections cfg hexd docId docTitle (anc ++ [t]) subs)
      (chunk_sections cfg hexd docId docTitle anc rest)
  termination_by _ ss => sizeOf ss

/-- Model of `SemanticChunker.chunk_document`: table chunks first, then the
text chunks of the section tree. -/
def chunk_document (cfg : Chunker) (hexd : List Char → List Char) (docId : List Char)
    (sections : List DocSection) (tables : List RegisterTable) (docTitle : List Char)
    (tablePages : Nat → Option Int) : Option (List Chunk) :=
  (chunk_sections cfg hexd docId docTitle [] sections).map
    (fun tc => chunk_tables hexd docId docTitle tablePages tables ++ tc)

/-- Modelled from the spec: the `TextBlock` record of the external
`pdf_parser.py` (absent from the sources): a text together with its
bounding box `(x0, y0, x1, y1)` in page coordinates (spec §3/§6).  The
floating-point coordinates are embedded as rationals. -/
structure TextBlock where
  text : List Char
  x0 : ℚ
  y0 : ℚ
  x1 : ℚ
  y1 : ℚ
deriving DecidableEq

/-- Modelled from the spec: the `Page` record of the external
`pdf_parser.py` (absent from the sources): page number and blocks. -/
structure Page where
  pageNum : Int
  blocks : List TextBlock
deriving DecidableEq

/-- The `TableRegion` dataclass of `table_detector.py` (header keywords are
a Python set; they are embedded as a list and only used through
membership). -/
structure TableRegion where
  pageNum : Int
  x0 : ℚ
  y0 : ℚ
  x1 : ℚ
  y1 : ℚ
  tableType : TableType
  headerKeywords : List (List Char)
deriving DecidableEq

/-- Python `\w` on ASCII text. -/
def isWordChar (c : Char) : Bool := c.isAlphanum || c == '_'

/-- Keyword normalization of `_extract_header_keywords` for one block:
`text.lower().strip()` followed by `re.sub(r'[^\w\s]', '', text)`. -/
def normalizeKeyword (text : List Char) : List Char :=
  (pyStrip (text.map Char.toLower)).filter (fun c => isWordChar c || pyIsSpace c)

/-- Model of `TableDetector._extract_header_keywords` (the Python set,
embedded as a list and used only through membership). -/
def extract_header_keywords (row : List TextBlock) : List (List Char) :=
  row.map (fun b => normalizeKeyword b.text)

/-- The `REGISTER_MAP_HEADERS` reference set. -/
def registerMapHeaders : List (List Char) :=
  ["address".data, "offset".data, "register".data, "name".data, "width".data,
   "reset".data, "access".data, "description".data]

/-- The `BITFIELD_HEADERS` reference set. -/
def bitfieldHeaders : List (List Char) :=
  ["field".data, "bit".data, "bits".data, "range".data, "type".data,
   "access".data, "reset".data, "description".data]

/-- The `MEMORY_MAP_HEADERS` reference set. -/
def memoryMapHeaders : List (List Char) :=
  ["peripheral".data, "base".data, "address".data, "size".data, "description".data]

/-- `len(keywords & ref)` for a duplicate-free reference set `ref`. -/
def kwScore (ref kw : List (List Char)) : Nat :=
  (ref.filter (fun k => decide (k ∈ kw))).length

/-- Model of `TableDetector._classify_table_type`. -/
def classify_table_type (kw : List (List Char)) : TableType :=
  let rs := kwScore registerMapHeaders kw
  let bs := kwScore bitfieldHeaders kw
  let ms := kwScore memoryMapHeaders kw
  let mx := max rs (max bs ms)
  if mx = 0 then .other
  else if rs = mx then .registerMap
  else if bs = mx then .bitfieldDefinition
  else .memoryMap

/-- Python `min(block.bbox[0] for block in row)` (0 on an empty row; the
detector only reaches this on rows of length at least 2). -/
def minX0 : List TextBlock → ℚ
  | [] => 0
  | b :: bs => bs.foldl (fun acc x => min acc x.x0) b.x0

/-- Python `max(block.bbox[2] for block in row)`. -/
def maxX1 : List TextBlock → ℚ
  | [] => 0
  | b :: bs => bs.foldl (fun acc x => max acc x.x1) b.x1

/-- Python `min(block.bbox[1] for block in row)`. -/
def minY0 : List TextBlock → ℚ
  | [] => 0
  | b :: bs => bs.foldl (fun acc x => min acc x.y0) b.y0

/-- Python `max(block.bbox[3] for block in row)`. -/
def maxY1 : List TextBlock → ℚ
  | [] => 0
  | b :: bs => bs.foldl (fun acc x => max acc x.y1) b.y1

/-- The row-extension loop of `_extract_table_region`: scan rows after the
header, break at the first row with too few blocks or x-bounds further
than 50 units from the header's.  Each included row overwrites `y1` with
its own maximum bottom (`y1 = max(block.bbox[3] for block in row)` is an
assignment, not a running maximum). -/
def extendRows (x0 x1 : ℚ) (numCols : Nat) : List (List TextBlock) → ℚ → ℚ
  | [], y1 => y1
  | row :: rest, y1 =>
    if row.length < max 2 (numCols - 2) then y1
    else if 50 < |minX0 row - x0| ∨ 50 < |maxX1 row - x1| then y1
    else extendRows x0 x1 numCols rest (maxY1 row)

/-- Model of `TableDetector._extract_table_region`. -/
def extract_table_region (page : Page) (rows : List (List TextBlock)) (idx : Nat) :
    Option TableRegion :=
  match rows.drop idx with
  | [] => none
  | headerRow :: rest =>
    let kw := extract_header_keywords headerRow
    let x0 := minX0 headerRow
    let x1 := maxX1 headerRow
    let y0 := minY0 headerRow
    let y1 := extendRows x0 x1 headerRow.length rest y0
    if y1 - y0 < 20 then none
    else some ⟨page.pageNum, x0, y0, x1, y1, classify_table_type kw, kw⟩

/-- Stated from the claim: a scanned row is included in the table region
while it has at least `max(2, num_cols-2)` blocks and both x-bounds lie
within 50 units of the header's. -/
def rowOkB (x0 x1 : ℚ) (numCols : Nat) (row : List TextBlock) : Bool :=
  decide (max 2 (numCols - 2) ≤ row.length) &&
    decide (|minX0 row - x0| ≤ 50) && decide (|maxX1 row - x1| ≤ 50)

/-- Stated from the claim: the region of a header row takes the rows
included by `rowOkB` up to the first failing row (excluded), its bbox is
`(min x0, min y0, max x1)` over the header blocks together with the
maximum bottom over the included rows, and it is discarded when that
height is below 20 units (in particular when no row at all is included). -/
def specExtractRegion (page : Page) (rows : List (List TextBlock)) (idx : Nat) :
    Option TableRegion :=
  match rows.drop idx with
  | [] => none
  | headerRow :: rest =>
    let kw := extract_header_keywords headerRow
    let x0 := minX0 headerRow
    let x1 := maxX1 headerRow
    let y0 := minY0 headerRow
    let included := rest.takeWhile (rowOkB x0 x1 headerRow.length)
    match (included.map maxY1).max? with
    | none => none
    | some m =>
      if m - y0 < 20 then none
      else some ⟨page.pageNum, x0, y0, x1, m, classify_table_type kw, kw⟩

/-- The corrected region description: identical to `specExtractRegion`
except that the region bottom is the maximum bottom of the LAST included
row (each scanned row overwrites `y1` in the source), not the maximum
over all included rows. -/
def specExtractRegionLast (page : Page) (rows : List (List TextBlock)) (idx : Nat) :
    Option TableRegion :=
  match rows.drop idx with
  | [] => none
  | headerRow :: rest =>
    let kw := extract_header_keywords headerRow
    let x0 := minX0 headerRow
    let x1 := maxX1 headerRow
    let y0 := minY0 headerRow
    let included := rest.takeWhile (rowOkB x0 x1 headerRow.length)
    match (included.map maxY1).getLast? with
    | none => none
    | some m =>
      if m - y0 < 20 then none
      else some ⟨page.pageNum, x0, y0, x1, m, classify_table_type kw, kw⟩

/-- Stated from the claim: classification picks the reference set of
maximum overlap score, ties resolved in the fixed priority order
register map, then bitfield definition, then memory map, with `OTHER`
reserved for a zero maximum. -/
def specClassify (kw : List (List Char)) : TableType :=
  let rs := kwScore registerMapHeaders kw
  let bs := kwScore bitfieldHeaders kw
  let ms := kwScore memoryMapHeaders kw
  if rs = 0 ∧ bs = 0 ∧ ms = 0 then .other
  else if bs ≤ rs ∧ ms ≤ rs then .registerMap
  else if ms ≤ bs then .bitfieldDefinition
  else .memoryMap

/-- Stated from the claim: the depth-first, left-to-right list of leaf
sections of a section forest, each paired with its ancestor hierarchy
(ancestor titles extended by the leaf's own title). -/
def dfsLeaves (anc : List (List Char)) :
    List DocSection → List (List (List Char) × DocSection)
  | [] => []
  | DocSection.mk t lv c sp ep subs :: rest =>
    (if subs.isEmpty then [(anc ++ [t], DocSection.mk t lv c sp ep subs)]
     else dfsLeaves (anc ++ [t]) subs) ++ dfsLeaves anc rest
  termination_by ss => sizeOf ss

/-- Concatenation of the `Option`-valued chunk lists of a leaf sequence. -/
def optConcatMap {α β : Type} (f : α → Option (List β)) : List α → Option (List β)
  | [] => some []
  | a :: l => optAppend (f a) (optConcatMap f l)

/-! Lemmas about the string primitives. -/

theorem forall_dropWhile_iff {p : Char → Bool} {l : List Char} :
    (∀ c ∈ l.dropWhile p, p c) ↔ ∀ c ∈ l, p c := by
  constructor
  · intro h c hc
    rw [← List.takeWhile_append_dropWhile (p := p) (l := l)] at hc
    rcases List.mem_append.mp hc with h1 | h2
    · exact List.mem_takeWhile_imp h1
    · exact h c h2
  · intro h c hc
    exact h c ((List.dropWhile_sublist _).subset hc)

theorem pyStrip_eq_nil_iff {l : List Char} : pyStrip l = [] ↔ ∀ c ∈ l, pyIsSpace c := by
  unfold pyStrip
  rw [List.reverse_eq_nil_iff, List.dropWhile_eq_nil_iff]
  constructor
  · intro h c hc
    exact forall_dropWhile_iff.mp (fun d hd => h d (List.mem_reverse.mpr hd)) c hc
  · intro h c hc
    exact forall_dropWhile_iff.mpr h c (List.mem_reverse.mp hc)

theorem head?_dropWhile_not {p : Char → Bool} {l : List Char} {c : Char}
    (h : (l.dropWhile p).head? = some c) : p c = false := by
  induction l with
  | nil => simp [List.dropWhile] at h
  | cons a t ih =>
    by_cases hp : p a
    · rw [List.dropWhile_cons_of_pos hp] at h
      exact ih h
    · rw [List.dropWhile_cons_of_neg hp] at h
      simp only [List.head?_cons, Option.some.injEq] at h
      subst h
      simpa using hp

theorem getLast?_dropWhile {p : Char → Bool} {l : List Char}
    (h : l.dropWhile p ≠ []) : (l.dropWhile p).getLast? = l.getLast? := by
  induction l with
  | nil => simp at h
  | cons a t ih =>
    by_cases hp : p a
    · rw [List.dropWhile_cons_of_pos hp] at h ⊢
      have ht : t ≠ [] := by
        intro he
        rw [he] at h
        simp [List.dropWhile] at h
      rw [ih h]
      match t, ht with
      | x :: xs, _ => exact (List.getLast?_cons_cons).symm
    · rw [List.dropWhile_cons_of_neg hp]

theorem pyStrip_getLast_not_space {l : List Char} {c : Char}
    (h : (pyStrip l).getLast? = some c) : pyIsSpace c = false := by
  unfold pyStrip at h
  rw [List.getLast?_reverse] at h
  exact head?_dropWhile_not h

theorem pyStrip_head_not_space {l : List Char} {c : Char}
    (h : (pyStrip l).head? = some c) : pyIsSpace c = false := by
  unfold pyStrip at h
  rw [List.head?_reverse] at h
  have hne : List.dropWhile pyIsSpace (l.dropWhile pyIsSpace).reverse ≠ [] := by
    intro he
    rw [he] at h
    simp at h
  rw [getLast?_dropWhile hne, List.getLast?_reverse] at h
  exact head?_dropWhile_not h

theorem pyStrip_ne_nil_of_mem {l : List Char} {c : Char} (hc : c ∈ l)
    (hs : pyIsSpace c = false) : pyStrip l ≠ [] := by
  intro h
  rw [pyStrip_eq_nil_iff] at h
  simp [h c hc] at hs

theorem rfindSpaceGo_some {content : List Char} {st k p : Nat}
    (h : rfindSpaceGo content st k = some p) :
    st ≤ p ∧ p < st + k ∧ content.get? p = some ' ' := by
  induction k with
  | zero => simp [rfindSpaceGo] at h
  | succ k ih =>
    unfold rfindSpaceGo at h
    split at h
    · injection h with h'
      subst h'
      exact ⟨Nat.le_add_right _ _, by omega, by assumption⟩
    · obtain ⟨h1, h2, h3⟩ := ih h
      exact ⟨h1, by omega, h3⟩

theorem pyRfindSpace_some {content : List Char} {st en p : Nat}
    (h : pyRfindSpace content st en = some p) :
    st ≤ p ∧ p < en ∧ p < content.length ∧ content.get? p = some ' ' := by
  obtain ⟨h1, h2, h3⟩ := rfindSpaceGo_some h
  have hlen : p < content.length := by
    by_contra hl
    rw [List.get?_eq_none.mpr (by omega)] at h3
    exact Option.noConfusion h3
  exact ⟨h1, by omega, hlen, h3⟩

/-! Lemmas about the regex model. -/

theorem wsRun_le {cap : Nat} {l : List Char} : wsRun cap l ≤ cap := by
  induction cap generalizing l with
  | zero => cases l <;> simp [wsRun]
  | succ k ih =>
    cases l with
    | nil => simp [wsRun]
    | cons c cs =>
      unfold wsRun
      split
      · exact Nat.succ_le_succ ih
      · exact Nat.zero_le _

theorem nlRun_le {cap : Nat} {l : List Char} : nlRun cap l ≤ cap := by
  induction cap generalizing l with
  | zero => cases l <;> simp [nlRun]
  | succ k ih =>
    cases l with
    | nil => simp [nlRun]
    | cons c cs =>
      unfold nlRun
      split
      · exact Nat.succ_le_succ ih
      · exact Nat.zero_le _

theorem matchCombined_pos {prev : Option Char} {rest : List Char} {cap len : Nat}
    (h : matchCombined prev rest cap = some len) : 1 ≤ len ∧ len ≤ cap := by
  cases rest with
  | nil => simp [matchCombined] at h
  | cons c cs =>
    cases cap with
    | zero => simp [matchCombined] at h
    | succ capp =>
      simp only [matchCombined.eq_def] at h
      split at h
      · injection h with h'
        subst h'
        refine ⟨?_, wsRun_le⟩
        rename_i hc
        have hsp : pyIsSpace c = true := by
          rcases Bool.and_eq_true _ _ |>.mp hc with ⟨_, h2⟩
          exact h2
        unfold wsRun
        rw [if_pos hsp]
        omega
      · cases cs with
        | nil => simp at h
        | cons d ds =>
          cases capp with
          | zero => simp at h
          | succ k =>
            simp only [] at h
            split at h
            · injection h with h'
              subst h'
              refine ⟨?_, nlRun_le⟩
              rename_i hc
              have hnl : (c == '\n') = true := by
                rcases Bool.and_eq_true _ _ |>.mp hc with ⟨h1, _⟩
                exact h1
              unfold nlRun
              rw [if_pos hnl]
              omega
            · exact Option.noConfusion h

theorem matchNN_pos {prev : Option Char} {rest : List Char} {cap len : Nat}
    (h : matchNN prev rest cap = some len) : 1 ≤ len ∧ len ≤ cap := by
  cases rest with
  | nil => simp [matchNN] at h
  | cons c cs =>
    cases cap with
    | zero => simp [matchNN] at h
    | succ capp =>
      cases cs with
      | nil => simp [matchNN] at h
      | cons d ds =>
        cases capp with
        | zero => simp [matchNN] at h
        | succ k =>
          simp only [matchNN.eq_def] at h
          split at h
          · injection h with h'
            subst h'
            refine ⟨?_, nlRun_le⟩
            rename_i hc
            have hnl : (c == '\n') = true := by
              rcases Bool.and_eq_true _ _ |>.mp hc with ⟨h1, _⟩
              exact h1
            unfold nlRun
            rw [if_pos hnl]
            omega
          · exact Option.noConfusion h

theorem matchNN_none_of_matchCombined_none {prev : Option Char} {rest : List Char} {cap : Nat}
    (h : matchCombined prev rest cap = none) : matchNN prev rest cap = none := by
  cases rest with
  | nil => simp [matchNN]
  | cons c cs =>
    cases cap with
    | zero => simp [matchNN]
    | succ capp =>
      cases cs with
      | nil => simp [matchNN]
      | cons d ds =>
        cases capp with
        | zero => simp [matchNN]
        | succ k =>
          simp only [matchCombined.eq_def] at h
          simp only [matchNN.eq_def]
          split at h
          · exact Option.noConfusion h
          · exact h

theorem finditerSkip_mem_bounds
    {m : Option Char → List Char → Nat → Option Nat}
    (hm : ∀ p r k l, m p r k = some l → 1 ≤ l ∧ l ≤ k) :
    ∀ {prev : Option Char} {rest : List Char} {pos cap skip : Nat} {st en : Nat},
      skip ≤ cap → (st, en) ∈ finditerSkip m prev rest pos cap skip →
      pos ≤ st ∧ st < en ∧ en ≤ pos + cap := by
  intro prev rest
  induction rest generalizing prev with
  | nil =>
    intro pos cap skip st en _ hmem
    simp [finditerSkip] at hmem
  | cons c cs ih =>
    intro pos cap skip st en hsk hmem
    rw [finditerSkip.eq_def] at hmem
    cases skip with
    | succ s =>
      simp only [] at hmem
      obtain ⟨h1, h2, h3⟩ := ih (by omega : s ≤ cap - 1) hmem
      exact ⟨by omega, h2, by omega⟩
    | zero =>
      cases cap with
      | zero => simp at hmem
      | succ k =>
        simp only [] at hmem
        rcases hml : m prev (c :: cs) (k + 1) with _ | l
        · rw [hml] at hmem
          simp only [] at hmem
          obtain ⟨h1, h2, h3⟩ := ih (by omega : 0 ≤ k + 1 - 1) hmem
          exact ⟨by omega, h2, by omega⟩
        · rw [hml] at hmem
          cases l with
          | zero => simp at hmem
          | succ l =>
            simp only [List.mem_cons] at hmem
            obtain ⟨hp1, hp2⟩ := hm _ _ _ _ hml
            rcases hmem with heq | htail
            · injection heq with he1 he2
              subst he1
              subst he2
              exact ⟨Nat.le_refl _, by omega, by omega⟩
            · obtain ⟨h1, h2, h3⟩ := ih (by omega : l ≤ k + 1 - 1) htail
              exact ⟨by omega, h2, by omega⟩

theorem finditerSkip_nn_nil {prev : Option Char} {rest : List Char} {pos cap : Nat}
    (h : finditerSkip matchCombined prev rest pos cap 0 = []) :
    finditerSkip matchNN prev rest pos cap 0 = [] := by
  induction rest generalizing prev pos cap with
  | nil => simp [finditerSkip]
  | cons c cs ih =>
    rw [finditerSkip.eq_def] at h ⊢
    cases cap with
    | zero => simp
    | succ k =>
      simp only [] at h ⊢
      rcases hml : matchCombined prev (c :: cs) (k + 1) with _ | l
      · rw [hml] at h
        rw [matchNN_none_of_matchCombined_none hml]
        simp only [] at h ⊢
        exact ih h
      · rw [hml] at h
        cases l with
        | zero =>
          obtain ⟨h1, _⟩ := matchCombined_pos hml
          omega
        | succ l => simp at h

theorem fallbackBoundaries_nil {content : List Char}
    (h : find_sentence_boundaries content = []) : fallbackBoundaries content = [] := by
  unfold find_sentence_boundaries finditerRegion finditerFrom at h
  unfold fallbackBoundaries finditerFrom
  rw [List.map_eq_nil_iff] at h
  rw [List.map_eq_nil_iff]
  have hp : prevAt content 0 = none := by simp [prevAt]
  rw [hp] at h
  simpa using finditerSkip_nn_nil (by simpa using h)

/-! Lemmas about the splitting loop. -/

theorem findBestAux_some {l : List Nat} {s e : Nat} :
    ∀ {acc : Option Nat} {b : Nat}, findBestAux l s e acc = some b →
      (∀ x, acc = some x → s < x ∧ x ≤ e) → s < b ∧ b ≤ e := by
  induction l with
  | nil =>
    intro acc b h hacc
    exact hacc b h
  | cons a t ih =>
    intro acc b h hacc
    rw [findBestAux.eq_def] at h
    simp only [] at h
    split at h
    · exact ih h hacc
    · split at h
      · refine ih h ?_
        intro x hx
        injection hx with hx'
        subst hx'
        omega
      · exact hacc b h

theorem splitEnd_le {budget : Nat} {content : List Char} {bnds : List Nat} {start : Nat} :
    splitEnd budget content bnds start ≤ content.length := by
  simp only [splitEnd]
  split
  · exact Nat.le_refl _
  · rename_i hlt
    rcases hb : findBestAux bnds start (start + budget) none with _ | b
    · rcases hr : pyRfindSpace content start (start + budget) with _ | p
      · simp only []
        omega
      · obtain ⟨h1, h2, h3, _⟩ := pyRfindSpace_some hr
        simp only []
        split <;> omega
    · obtain ⟨h1, h2⟩ := findBestAux_some hb (by intro x hx; exact Option.noConfusion hx)
      simp only []
      omega

theorem splitEnd_gt {budget : Nat} {content : List Char} {bnds : List Nat} {start : Nat}
    (hb : 1 ≤ budget) (hs : start < content.length) :
    start < splitEnd budget content bnds start := by
  simp only [splitEnd]
  split
  · exact hs
  · rcases hbb : findBestAux bnds start (start + budget) none with _ | b
    · rcases hr : pyRfindSpace content start (start + budget) with _ | p
      · simp only []
        omega
      · obtain ⟨h1, h2, h3, _⟩ := pyRfindSpace_some hr
        simp only []
        split <;> omega
    · obtain ⟨h1, h2⟩ := findBestAux_some hbb (by intro x hx; exact Option.noConfusion hx)
      simp only []
      omega

theorem splitEnd_ge {budget : Nat} {content : List Char} {bnds : List Nat} {start : Nat}
    (hs : start < content.length) : start ≤ splitEnd budget content bnds start := by
  simp only [splitEnd]
  split
  · omega
  · rcases hbb : findBestAux bnds start (start + budget) none with _ | b
    · rcases hr : pyRfindSpace content start (start + budget) with _ | p
      · simp only []
        omega
      · obtain ⟨h1, h2, h3, _⟩ := pyRfindSpace_some hr
        simp only []
        split <;> omega
    · obtain ⟨h1, h2⟩ := findBestAux_some hbb (by intro x hx; exact Option.noConfusion hx)
      simp only []
      omega

theorem compute_overlap_start_cases {ovl : Nat} {content : List Char} {cs ce : Nat} :
    cs < compute_overlap_start ovl content cs ce ∨
      compute_overlap_start ovl content cs ce = ce := by
  have hbound : ∀ b ∈ (finditerRegion content (max cs (ce - ovl)) ce).map Prod.snd, cs < b := by
    intro b hb
    rcases List.mem_map.mp hb with ⟨⟨st, en⟩, hmem, hsnd⟩
    obtain ⟨h1, h2, _⟩ := finditerSkip_mem_bounds
      (fun p r k l hl => matchCombined_pos hl) (Nat.zero_le _) hmem
    subst hsnd
    simp only []
    omega
  simp only [compute_overlap_start]
  rcases hrev : ((finditerRegion content (max cs (ce - ovl)) ce).map Prod.snd).reverse
    with _ | ⟨b, bs⟩
  · right
    rfl
  · cases bs with
    | nil =>
      left
      exact hbound b (by rw [← List.mem_reverse, hrev]; exact List.mem_cons_self ..)
    | cons b2 bs2 =>
      left
      exact hbound b2
        (by rw [← List.mem_reverse, hrev]; exact List.mem_cons_of_mem _ (List.mem_cons_self ..))

theorem nextStartFn_le {ovl : Nat} {content : List Char} {start e : Nat} :
    nextStartFn ovl content start e ≤ e := by
  simp only [nextStartFn]
  split <;> omega

theorem nextStartFn_gt {budget ovl : Nat} {content : List Char} {bnds : List Nat} {start : Nat}
    (hb : 1 ≤ budget) (hs : start < content.length) :
    start < nextStartFn ovl content start (splitEnd budget content bnds start) := by
  have hgt := @splitEnd_gt budget content bnds start hb hs
  simp only [nextStartFn]
  rcases @compute_overlap_start_cases ovl content start (splitEnd budget content bnds start)
    with h | h
  · split <;> omega
  · split <;> omega

theorem nextStartFn_ge {budget ovl : Nat} {content : List Char} {bnds : List Nat} {start : Nat}
    (hs : start < content.length) :
    start ≤ nextStartFn ovl content start (splitEnd budget content bnds start) := by
  have he := @splitEnd_ge budget content bnds start hs
  simp only [nextStartFn]
  rcases @compute_overlap_start_cases ovl content start (splitEnd budget content bnds start)
    with h | h
  · split <;> omega
  · split <;> omega

theorem splitSegs_fix_none {budget ovl : Nat} {content : List Char} {bnds : List Nat}
    {start : Nat}
    (hfix : nextStartFn ovl content start (splitEnd budget content bnds start) = start)
    (hs : start < content.length) :
    ∀ fuel, splitSegs budget ovl content bnds fuel start = none := by
  intro fuel
  induction fuel with
  | zero => rw [splitSegs, if_pos hs]
  | succ f ih =>
    rw [splitSegs, if_pos hs]
    rw [hfix, ih]
    rfl

theorem splitSegs_progress {budget ovl : Nat} {content : List Char} {bnds : List Nat}
    {fuel start : Nat} {segs : List (Nat × Nat)}
    (h : splitSegs budget ovl content bnds fuel start = some segs)
    (hs : start < content.length) :
    start < nextStartFn ovl content start (splitEnd budget content bnds start) := by
  by_contra hle
  push_neg at hle
  have hge := @nextStartFn_ge budget ovl content bnds start hs
  have hfix : nextStartFn ovl content start (splitEnd budget content bnds start) = start := by
    omega
  rw [splitSegs_fix_none hfix hs fuel] at h
  exact Option.noConfusion h

theorem splitSegs_head {budget ovl : Nat} {content : List Char} {bnds : List Nat}
    {fuel start : Nat} {segs : List (Nat × Nat)}
    (h : splitSegs budget ovl content bnds fuel start = some segs)
    (hs : start < content.length) :
    ∃ tail, segs = (start, splitEnd budget content bnds start) :: tail ∧
      splitSegs budget ovl content bnds (fuel - 1)
        (nextStartFn ovl content start (splitEnd budget content bnds start)) = some tail := by
  cases fuel with
  | zero =>
    rw [splitSegs, if_pos hs] at h
    exact Option.noConfusion h
  | succ f =>
    rw [splitSegs, if_pos hs] at h
    rcases hrec : splitSegs budget ovl content bnds f
        (nextStartFn ovl content start (splitEnd budget content bnds start)) with _ | tail
    · rw [hrec] at h
      exact Option.noConfusion h
    · rw [hrec] at h
      injection h with h'
      exact ⟨tail, h'.symm, hrec⟩

theorem splitSegs_cover {budget ovl : Nat} {content : List Char} {bnds : List Nat}
    (hb : 1 ≤ budget) :
    ∀ fuel start, content.length - start ≤ fuel →
      ∃ segs, splitSegs budget ovl content bnds fuel start = some segs ∧
        ∀ i, start ≤ i → i < content.length → ∃ p ∈ segs, p.1 ≤ i ∧ i < p.2 := by
  intro fuel
  induction fuel with
  | zero =>
    intro start hf
    have hns : ¬ start < content.length := by omega
    refine ⟨[], by rw [splitSegs, if_neg hns], ?_⟩
    intro i h1 h2
    omega
  | succ f ih =>
    intro start hf
    by_cases hs : start < content.length
    · have hprog := @nextStartFn_gt budget ovl content bnds start hb hs
      obtain ⟨segs', hsome', hcov'⟩ :=
        ih (nextStartFn ovl content start (splitEnd budget content bnds start)) (by omega)
      refine ⟨(start, splitEnd budget content bnds start) :: segs', ?_, ?_⟩
      · rw [splitSegs, if_pos hs]
        rw [hsome']
        rfl
      · intro i h1 h2
        by_cases hie : i < splitEnd budget content bnds start
        · exact ⟨(start, splitEnd budget content bnds start), List.mem_cons_self .., h1, hie⟩
        · have hns := @nextStartFn_le ovl content start
            (splitEnd budget content bnds start)
          obtain ⟨p, hp, hp1, hp2⟩ := hcov' i (by omega) h2
          exact ⟨p, List.mem_cons_of_mem _ hp, hp1, hp2⟩
    · refine ⟨[], by rw [splitSegs, if_neg hs], ?_⟩
      intro i h1 h2
      omega

theorem splitSegs_last {budget ovl : Nat} {content : List Char} {bnds : List Nat} :
    ∀ {fuel start : Nat} {segs : List (Nat × Nat)},
      splitSegs budget ovl content bnds fuel start = some segs →
      start < content.length →
      ∃ s', s' < content.length ∧ (s', content.length) ∈ segs := by
  intro fuel
  induction fuel with
  | zero =>
    intro start segs h hs
    rw [splitSegs, if_pos hs] at h
    exact Option.noConfusion h
  | succ f ih =>
    intro start segs h hs
    obtain ⟨tail, hseg, htail⟩ := splitSegs_head h hs
    by_cases hns : nextStartFn ovl content start (splitEnd budget content bnds start) <
        content.length
    · obtain ⟨s', hs', hmem⟩ := ih htail hns
      exact ⟨s', hs', hseg ▸ List.mem_cons_of_mem _ hmem⟩
    · have hle := @splitEnd_le budget content bnds start
      have hnle := @nextStartFn_le ovl content start
        (splitEnd budget content bnds start)
      have heq : splitEnd budget content bnds start = content.length := by omega
      refine ⟨start, hs, ?_⟩
      rw [hseg, heq]
      exact List.mem_cons_self ..

theorem splitSegs_chain {budget ovl : Nat} {content : List Char} {bnds : List Nat} :
    ∀ {fuel start : Nat} {segs : List (Nat × Nat)},
      splitSegs budget ovl content bnds fuel start = some segs →
      List.Chain' (fun a b => a.1 < b.1) segs ∧ ∀ p ∈ segs, start ≤ p.1 := by
  intro fuel
  induction fuel with
  | zero =>
    intro start segs h
    by_cases hs : start < content.length
    · rw [splitSegs, if_pos hs] at h
      exact Option.noConfusion h
    · rw [splitSegs, if_neg hs] at h
      injection h with h'
      subst h'
      exact ⟨List.chain'_nil, by intro p hp; simp at hp⟩
  | succ f ih =>
    intro start segs h
    by_cases hs : start < content.length
    · obtain ⟨tail, hseg, htail⟩ := splitSegs_head h hs
      subst hseg
      obtain ⟨hch, hall⟩ := ih htail
      have hprog := splitSegs_progress h hs
      constructor
      · rw [List.chain'_cons']
        refine ⟨?_, hch⟩
        intro q hq
        have hq1 := hall q (List.mem_of_mem_head? hq)
        simp only []
        omega
      · intro p hp
        rcases List.mem_cons.mp hp with h1 | h2
        · subst h1
          exact Nat.le_refl _
        · have := hall p h2
          omega
    · rw [splitSegs, if_neg hs] at h
      injection h with h'
      subst h'
      exact ⟨List.chain'_nil, by intro p hp; simp at hp⟩

/-! Lemmas about chunk construction. -/

theorem segChunk_some {hexd : List Char → List Char} {docId secTitle : List Char}
    {secLevel sp ep : Int} {pfx content : List Char} {seg : Nat × Nat} {c : Chunk}
    (h : segChunk hexd docId secTitle secLevel sp ep pfx content seg = some c) :
    c.chunkType = "text".data ∧ c.structuredData = none ∧
      c.id = chunkIdOf hexd docId c.text ∧ c.docId = docId ∧
      c.text = pfx ++ pyStrip (listSlice content seg.1 seg.2) := by
  simp only [segChunk] at h
  split at h
  · exact Option.noConfusion h
  · injection h with h'
    subst h'
    exact ⟨rfl, rfl, rfl, rfl, rfl⟩

theorem segChunk_emits {hexd : List Char → List Char} {docId secTitle : List Char}
    {secLevel sp ep : Int} {pfx content : List Char} {seg : Nat × Nat} {ch : Char}
    (hch : ch ∈ listSlice content seg.1 seg.2) (hns : pyIsSpace ch = false) :
    (segChunk hexd docId secTitle secLevel sp ep pfx content seg).isSome := by
  have h1 : pyStrip (listSlice content seg.1 seg.2) ≠ [] := pyStrip_ne_nil_of_mem hch hns
  obtain ⟨d, ds, hds⟩ := List.exists_cons_of_ne_nil h1
  have hd : pyIsSpace d = false := pyStrip_head_not_space (by rw [hds]; rfl)
  have hdmem : d ∈ pfx ++ pyStrip (listSlice content seg.1 seg.2) := by
    rw [hds]
    exact List.mem_append_right _ (List.mem_cons_self ..)
  have h2 : pyStrip (pfx ++ pyStrip (listSlice content seg.1 seg.2)) ≠ [] :=
    pyStrip_ne_nil_of_mem hdmem hd
  simp only [segChunk]
  rw [if_neg (by simpa [List.isEmpty_iff] using h2)]
  rfl

theorem leafChunks_mem {cfg : Chunker} {hexd : List Char → List Char}
    {docId docTitle : List Char} {hier : List (List Char)} {sec : DocSection}
    {cs : List Chunk} {c : Chunk}
    (h : leafChunks cfg hexd docId docTitle hier sec = some cs) (hc : c ∈ cs) :
    c.chunkType = "text".data ∧ c.structuredData = none ∧
      c.id = chunkIdOf hexd docId c.text := by
  simp only [leafChunks] at h
  split at h
  · injection h with h'
    subst h'
    simp at hc
  · split at h
    · injection h with h'
      subst h'
      rcases List.mem_singleton.mp hc with rfl
      exact ⟨rfl, rfl, rfl⟩
    · simp only [split_section, splitSectionFuel] at h
      rcases Option.map_eq_some'.mp h with ⟨segs, hsegs, hcs⟩
      subst hcs
      rcases List.mem_filterMap.mp hc with ⟨seg, hmem, hseg⟩
      obtain ⟨h1, h2, h3, _, _⟩ := segChunk_some hseg
      exact ⟨h1, h2, h3⟩

theorem optAppend_some {α : Type} {o1 o2 : Option (List α)} {l : List α}
    (h : optAppend o1 o2 = some l) :
    ∃ a b, o1 = some a ∧ o2 = some b ∧ l = a ++ b := by
  cases o1 with
  | none => simp [optAppend] at h
  | some a =>
    cases o2 with
    | none => simp [optAppend] at h
    | some b =>
      simp only [optAppend] at h
      injection h with h'
      exact ⟨a, b, rfl, rfl, h'.symm⟩

theorem optAppend_nil_right {α : Type} {o : Option (List α)} :
    optAppend o (some []) = o := by
  cases o with
  | none => rfl
  | some a => simp [optAppend]

theorem optAppend_assoc {α : Type} (o1 o2 o3 : Option (List α)) :
    optAppend o1 (optAppend o2 o3) = optAppend (optAppend o1 o2) o3 := by
  cases o1 <;> cases o2 <;> cases o3 <;> simp [optAppend]

theorem optConcatMap_append {α β : Type} (f : α → Option (List β)) (l1 l2 : List α) :
    optConcatMap f (l1 ++ l2) = optAppend (optConcatMap f l1) (optConcatMap f l2) := by
  induction l1 with
  | nil =>
    simp only [List.nil_append, optConcatMap]
    cases optConcatMap f l2 with
    | none => rfl
    | some b => simp [optAppend]
  | cons a t ih =>
    simp only [List.cons_append, List.append_eq, optConcatMap, ih, optAppend_assoc]

theorem optConcatMap_mem {α β : Type} {f : α → Option (List β)} {l : List α}
    {L : List β} {c : β} (h : optConcatMap f l = some L) (hc : c ∈ L) :
    ∃ a ∈ l, ∃ la, f a = some la ∧ c ∈ la := by
  induction l generalizing L with
  | nil =>
    simp only [optConcatMap] at h
    injection h with h'
    subst h'
    simp at hc
  | cons a t ih =>
    simp only [optConcatMap] at h
    obtain ⟨x, y, hx, hy, hL⟩ := optAppend_some h
    subst hL
    rcases List.mem_append.mp hc with h1 | h2
    · exact ⟨a, List.mem_cons_self .., x, hx, h1⟩
    · obtain ⟨a', ha', la, hla, hcla⟩ := ih hy h2
      exact ⟨a', List.mem_cons_of_mem _ ha', la, hla, hcla⟩

theorem chunk_sections_eq_dfs (cfg : Chunker) (hexd : List Char → List Char)
    (docId docTitle : List Char) :
    (anc : List (List Char)) → (ss : List DocSection) →
      chunk_sections cfg hexd docId docTitle anc ss =
        optConcatMap (fun p => leafChunks cfg hexd docId docTitle p.1 p.2) (dfsLeaves anc ss)
  | anc, [] => by
    rw [chunk_sections, dfsLeaves]
    rfl
  | anc, DocSection.mk t lv c sp ep subs :: rest => by
    have h2 := chunk_sections_eq_dfs cfg hexd docId docTitle anc rest
    rw [chunk_sections, dfsLeaves, optConcatMap_append, h2]
    by_cases hsub : subs.isEmpty
    · rw [if_pos hsub, if_pos hsub]
      congr 1
      simp only [optConcatMap]
      rw [optAppend_nil_right]
    · have h1 := chunk_sections_eq_dfs cfg hexd docId docTitle (anc ++ [t]) subs
      rw [if_neg hsub, if_neg hsub, h1]
  termination_by _ ss => sizeOf ss

theorem chunk_sections_mem {cfg : Chunker} {hexd : List Char → List Char}
    {docId docTitle : List Char} {anc : List (List Char)} {ss : List DocSection}
    {S : List Chunk} {c : Chunk}
    (h : chunk_sections cfg hexd docId docTitle anc ss = some S) (hc : c ∈ S) :
    c.chunkType = "text".data ∧ c.structuredData = none ∧
      c.id = chunkIdOf hexd docId c.text := by
  rw [chunk_sections_eq_dfs] at h
  obtain ⟨a, _, la, hla, hcla⟩ := optConcatMap_mem h hc
  exact leafChunks_mem hla hcla

theorem chunkTablesAux_length {hexd : List Char → List Char} {docId docTitle : List Char}
    {tp : Nat → Option Int} : ∀ {i : Nat} {ts : List RegisterTable},
    (chunkTablesAux hexd docId docTitle tp i ts).length = ts.length := by
  intro i ts
  induction ts generalizing i with
  | nil => rfl
  | cons t rest ih => simp [chunkTablesAux, ih]

theorem chunkTablesAux_get? {hexd : List Char → List Char} {docId docTitle : List Char}
    {tp : Nat → Option Int} : ∀ {i k : Nat} {ts : List RegisterTable},
    (chunkTablesAux hexd docId docTitle tp i ts).get? k =
      (ts.get? k).map (fun t => mkTableChunk hexd docId docTitle tp (i + k) t) := by
  intro i k ts
  induction ts generalizing i k with
  | nil => simp [chunkTablesAux]
  | cons t rest ih =>
    cases k with
    | zero => simp [chunkTablesAux]
    | succ k =>
      simp only [chunkTablesAux, List.get?_cons_succ, ih]
      rw [show i + 1 + k = i + (k + 1) from by omega]

theorem chunkTablesAux_mem {hexd : List Char → List Char} {docId docTitle : List Char}
    {tp : Nat → Option Int} : ∀ {i : Nat} {ts : List RegisterTable} {c : Chunk},
    c ∈ chunkTablesAux hexd docId docTitle tp i ts →
      ∃ j t, t ∈ ts ∧ c = mkTableChunk hexd docId docTitle tp j t := by
  intro i ts c h
  induction ts generalizing i with
  | nil => simp [chunkTablesAux] at h
  | cons t rest ih =>
    simp only [chunkTablesAux, List.mem_cons] at h
    rcases h with h1 | h2
    · exact ⟨i, t, List.mem_cons_self .., h1⟩
    · obtain ⟨j, t', ht', hc⟩ := ih h2
      exact ⟨j, t', List.mem_cons_of_mem _ ht', hc⟩

theorem tableType_value_ne_text : ∀ tt : TableType, tt.value ≠ "text".data := by
  intro tt
  cases tt <;> decide

/-! The claims. -/

/-- C10: the double-newline fallback boundary set computed at the start of
`_split_section` is empty whenever the primary sentence-boundary set is
empty (the primary pattern already matches `\n\n+`), so the fallback never
changes the boundary list: the splitter always works with exactly the
primary sentence boundaries, and an oversized section with no sentence
punctuation and no double newlines is split at the last-space position or
by a hard budget cut, never at a paragraph break found by the fallback. -/
theorem c10_fallback_redundant (content : List Char) :
    (find_sentence_boundaries content = [] → fallbackBoundaries content = []) ∧
      effectiveBoundaries content = find_sentence_boundaries content := by
  refine ⟨fallbackBoundaries_nil, ?_⟩
  simp only [effectiveBoundaries]
  split
  · rename_i h
    rw [fallbackBoundaries_nil h, h]
  · rfl

/-- Witness for C10 at a concrete text with neither sentence punctuation
nor double newlines. -/
theorem c10_witness :
    find_sentence_boundaries "paragraph one two".data = [] ∧
      fallbackBoundaries "paragraph one two".data = [] :=
  ⟨by decide, (c10_fallback_redundant "paragraph one two".data).1 (by decide)⟩

/-- C5: for every header-keyword set the classified table type is the
reference set achieving the maximum overlap score, ties resolved in the
fixed priority order register map, bitfield definition, memory map, with
`OTHER` for a zero maximum; in particular the keyword set
`{address, offset, register, description}` is classified `REGISTER_MAP`. -/
theorem c5_classify_argmax :
    (∀ kw : List (List Char), classify_table_type kw = specClassify kw) ∧
      classify_table_type
          ["address".data, "offset".data, "register".data, "description".data] =
        TableType.registerMap := by
  constructor
  · intro kw
    simp only [classify_table_type, specClassify]
    split_ifs <;> first | rfl | omega
  · decide

theorem exists_adjacent_regLines (pre : List (List Char)) (regs : List Register)
    (r : Register) (hr : r ∈ regs) :
    ∃ i, (pre ++ regs.flatMap regLines).get? i = some ("## ".data ++ r.name) ∧
      (pre ++ regs.flatMap regLines).get? (i + 1) = some (detailLine r) := by
  obtain ⟨s, t2, hsplit⟩ := List.append_of_mem hr
  subst hsplit
  refine ⟨(pre ++ s.flatMap regLines).length, ?_, ?_⟩
  · rw [List.flatMap_append, List.flatMap_cons, ← List.append_assoc,
      List.get?_append_right (Nat.le_refl _), Nat.sub_self]
    rfl
  · rw [List.flatMap_append, List.flatMap_cons, ← List.append_assoc,
      List.get?_append_right (by omega),
      show (pre ++ s.flatMap regLines).length + 1 - (pre ++ s.flatMap regLines).length = 1
        from by omega]
    rfl

/-- C9: in `_format_table_as_text`, every register's `## name` heading is
immediately followed by the single pipe-joined detail line whose segments
appear in the fixed order Address, Offset, Width, Reset, Access, with
Width and Access always present and the others only when truthy (this
order and presence condition is the definition of `detailLine`); in
particular the register `MCR` with width 32, access `RW` and no
address/offset/reset/description yields the line `## MCR` followed by a
detail line that is exactly `Width: 32-bit | Access: RW`. -/
theorem c9_register_detail :
    (∀ (t : RegisterTable) (r : Register), r ∈ t.registers →
        ∃ i, (tableLines t).get? i = some ("## ".data ++ r.name) ∧
          (tableLines t).get? (i + 1) = some (detailLine r)) ∧
      detailLine { name := "MCR".data, address := none, offset := none, width := 32,
                   resetValue := none, access := "RW".data, description := none,
                   fields := [{ name := "INRQ".data, bits := "0".data, bitRange := "0".data,
                                access := "rw".data, description := some "Init request".data,
                                resetValue := none }] } =
        "Width: 32-bit | Access: RW".data ∧
      (tableLines
            { peripheral := "CAN".data, context := [], tableType := .registerMap,
              registers := [{ name := "MCR".data, address := none, offset := none,
                              width := 32, resetValue := none, access := "RW".data,
                              description := none,
                              fields := [{ name := "INRQ".data, bits := "0".data,
                                           bitRange := "0".data, access := "rw".data,
                                           description := some "Init request".data,
                                           resetValue := none }] }] }).get? 2 =
          some ("## MCR".data) ∧
      (tableLines
            { peripheral := "CAN".data, context := [], tableType := .registerMap,
              registers := [{ name := "MCR".data, address := none, offset := none,
                              width := 32, resetValue := none, access := "RW".data,
                              description := none,
                              fields := [{ name := "INRQ".data, bits := "0".data,
                                           bitRange := "0".data, access := "rw".data,
                                           description := some "Init request".data,
                                           resetValue := none }] }] }).get? 3 =
          some ("Width: 32-bit | Access: RW".data) := by
  refine ⟨?_, by decide, by decide, by decide⟩
  intro t r hr
  simp only [tableLines]
  exact exists_adjacent_regLines _ _ _ hr

/-- Witness for C9: the adjacency statement instantiated at the `MCR`
example table. -/
theorem c9_witness :
    ∃ i, (tableLines
            { peripheral := "CAN".data, context := [], tableType := .registerMap,
              registers := [{ name := "MCR".data, address := none, offset := none,
                              width := 32, resetValue := none, access := "RW".data,
                              description := none, fields := [] }] }).get? i =
        some ("## ".data ++ "MCR".data) ∧
      (tableLines
            { peripheral := "CAN".data, context := [], tableType := .registerMap,
              registers := [{ name := "MCR".data, address := none, offset := none,
                              width := 32, resetValue := none, access := "RW".data,
                              description := none, fields := [] }] }).get? (i + 1) =
        some (detailLine { name := "MCR".data, address := none, offset := none,
                           width := 32, resetValue := none, access := "RW".data,
                           description := none, fields := [] }) :=
  c9_register_detail.1
    { peripheral := "CAN".data, context := [], tableType := .registerMap,
      registers := [{ name := "MCR".data, address := none, offset := none,
                      width := 32, resetValue := none, access := "RW".data,
                      description := none, fields := [] }] }
    { name := "MCR".data, address := none, offset := none, width := 32,
      resetValue := none, access := "RW".data, description := none, fields := [] }
    (List.mem_cons_self ..)

theorem splitEnd_le_budget {budget : Nat} {content : List Char} {bnds : List Nat} {start : Nat}
    (h : start + budget < content.length) :
    splitEnd budget content bnds start ≤ start + budget := by
  simp only [splitEnd]
  rw [if_neg (by omega)]
  rcases hbb : findBestAux bnds start (start + budget) none with _ | b
  · rcases hr : pyRfindSpace content start (start + budget) with _ | p
    · simp only []
      omega
    · obtain ⟨h1, h2, h3, _⟩ := pyRfindSpace_some hr
      simp only []
      split <;> omega
  · obtain ⟨h1, h2⟩ := findBestAux_some hbb (by intro x hx; exact Option.noConfusion hx)
    simp only []
    omega

theorem mem_take_of_head? {l : List Char} {d : Char} {n : Nat}
    (hd : l.head? = some d) (hn : 0 < n) : d ∈ l.take n := by
  cases l with
  | nil => simp at hd
  | cons a t =>
    injection hd with hd'
    subst hd'
    cases n with
    | zero => omega
    | succ k => simp [List.take_succ_cons]

theorem getLast_mem_drop {l : List Char} {g : Char} {s : Nat}
    (hg : l.getLast? = some g) (hs : s < l.length) : g ∈ l.drop s := by
  rw [List.getLast?_eq_getElem? l] at hg
  have hh : (l.drop s)[l.length - 1 - s]? = some g := by
    rw [List.getElem?_drop, show s + (l.length - 1 - s) = l.length - 1 from by omega]
    exact hg
  exact List.getElem?_mem hh

theorem split_section_two_chunks {cfg : Chunker} {hexd : List Char → List Char}
    {docId : List Char} {sec : DocSection} {pfx : List Char}
    (hne : pyStrip sec.content ≠ [])
    (hpfx : pfx.length < cfg.targetSize)
    (hover : cfg.targetSize < pfx.length + (pyStrip sec.content).length) :
    ∃ cs, split_section cfg hexd docId sec pfx = some cs ∧ 1 < cs.length := by
  have hb : 1 ≤ cfg.targetSize - pfx.length := by omega
  have hlen0 : 0 < (pyStrip sec.content).length := List.length_pos.mpr hne
  obtain ⟨segs, hsegs, _⟩ := @splitSegs_cover (cfg.targetSize - pfx.length) cfg.overlap
    (pyStrip sec.content) (effectiveBoundaries (pyStrip sec.content)) hb
    ((pyStrip sec.content).length + 1) 0 (by omega)
  obtain ⟨tail, hseg, _⟩ := splitSegs_head hsegs hlen0
  obtain ⟨s2, hs2, hmem⟩ := splitSegs_last hsegs hlen0
  have he0lt : splitEnd (cfg.targetSize - pfx.length) (pyStrip sec.content)
      (effectiveBoundaries (pyStrip sec.content)) 0 < (pyStrip sec.content).length := by
    have := @splitEnd_le_budget (cfg.targetSize - pfx.length) (pyStrip sec.content)
      (effectiveBoundaries (pyStrip sec.content)) 0 (by omega)
    omega
  have he0pos : 0 < splitEnd (cfg.targetSize - pfx.length) (pyStrip sec.content)
      (effectiveBoundaries (pyStrip sec.content)) 0 := splitEnd_gt hb hlen0
  obtain ⟨d, ds, hds⟩ := List.exists_cons_of_ne_nil hne
  have hdns : pyIsSpace d = false := pyStrip_head_not_space (by rw [hds]; rfl)
  have hdmem : d ∈ listSlice (pyStrip sec.content)
      ((0 : Nat), splitEnd (cfg.targetSize - pfx.length) (pyStrip sec.content)
        (effectiveBoundaries (pyStrip sec.content)) 0).1
      ((0 : Nat), splitEnd (cfg.targetSize - pfx.length) (pyStrip sec.content)
        (effectiveBoundaries (pyStrip sec.content)) 0).2 := by
    simp only [listSlice, List.drop_zero, Nat.sub_zero]
    exact mem_take_of_head? (by rw [hds]; rfl) he0pos
  have hemit1 : (segChunk hexd docId sec.title sec.level sec.startPage sec.endPage pfx
      (pyStrip sec.content) ((0 : Nat), splitEnd (cfg.targetSize - pfx.length)
        (pyStrip sec.content) (effectiveBoundaries (pyStrip sec.content)) 0)).isSome :=
    segChunk_emits hdmem hdns
  obtain ⟨ch1, hch1⟩ := Option.isSome_iff_exists.mp hemit1
  obtain ⟨g, hg⟩ := Option.isSome_iff_exists.mp
    ((List.getLast?_isSome).mpr hne)
  have hgns : pyIsSpace g = false := pyStrip_getLast_not_space hg
  have hgmem : g ∈ listSlice (pyStrip sec.content)
      (s2, (pyStrip sec.content).length).1 (s2, (pyStrip sec.content).length).2 := by
    have heq : listSlice (pyStrip sec.content) s2 (pyStrip sec.content).length =
        (pyStrip sec.content).drop s2 := by
      simp only [listSlice]
      exact List.take_of_length_le (by rw [List.length_drop])
    simp only []
    rw [heq]
    exact getLast_mem_drop hg hs2
  have hemit2 : (segChunk hexd docId sec.title sec.level sec.startPage sec.endPage pfx
      (pyStrip sec.content) (s2, (pyStrip sec.content).length)).isSome :=
    segChunk_emits hgmem hgns
  obtain ⟨ch2, hch2⟩ := Option.isSome_iff_exists.mp hemit2
  refine ⟨segs.filterMap (segChunk hexd docId sec.title sec.level sec.startPage
      sec.endPage pfx (pyStrip sec.content)), ?_, ?_⟩
  · simp only [split_section, splitSectionFuel, hsegs]
    rfl
  · have hmem_tail : (s2, (pyStrip sec.content).length) ∈ tail := by
      rw [hseg] at hmem
      rcases List.mem_cons.mp hmem with h1 | h2
      · rw [Prod.mk.injEq] at h1
        omega
      · exact h2
    have hne2 : tail.filterMap (segChunk hexd docId sec.title sec.level sec.startPage
        sec.endPage pfx (pyStrip sec.content)) ≠ [] :=
      List.ne_nil_of_mem (List.mem_filterMap.mpr ⟨_, hmem_tail, hch2⟩)
    have hpos := List.length_pos.mpr hne2
    rw [hseg]
    simp only [List.filterMap_cons, hch1]
    simp only [List.length_cons]
    omega

theorem splitSectionFuel_none {cfg : Chunker} {hexd : List Char → List Char}
    {docId : List Char} {sec : DocSection} {pfx : List Char} {fuel : Nat}
    (h : splitSegs (cfg.targetSize - pfx.length) cfg.overlap (pyStrip sec.content)
      (effectiveBoundaries (pyStrip sec.content)) fuel 0 = none) :
    splitSectionFuel cfg hexd docId sec pfx fuel = none := by
  simp only [splitSectionFuel, h]
  rfl

theorem split_section_none {cfg : Chunker} {hexd : List Char → List Char}
    {docId : List Char} {sec : DocSection} {pfx : List Char}
    (h : splitSegs (cfg.targetSize - pfx.length) cfg.overlap (pyStrip sec.content)
      (effectiveBoundaries (pyStrip sec.content)) ((pyStrip sec.content).length + 1) 0 =
      none) :
    split_section cfg hexd docId sec pfx = none :=
  splitSectionFuel_none h

/-- C1 counterexample: with `target_size` equal to the prefix length (zero
text budget) and non-empty trimmed content, the splitting loop never
advances `start`, so `_split_section` does not run to completion for any
iteration bound: the claim is false for this target size and prefix. -/
theorem c1_counterexample :
    ¬ ∃ fuel, (splitSectionFuel ⟨4, 200, true⟩ (fun _ => []) "d".data
        (DocSection.mk "T".data 1 "hello world".data 1 1 []) "[T]\n".data fuel).isSome := by
  rintro ⟨fuel, hf⟩
  have hnone : splitSegs 0 200 "hello world".data
      (effectiveBoundaries "hello world".data) fuel 0 = none :=
    splitSegs_fix_none (by decide) (by decide) fuel
  have hz : splitSectionFuel ⟨4, 200, true⟩ (fun _ => []) "d".data
      (DocSection.mk "T".data 1 "hello world".data 1 1 []) "[T]\n".data fuel = none := by
    show (splitSegs 0 200 "hello world".data
        (effectiveBoundaries "hello world".data) fuel 0).map _ = none
    rw [hnone]
    rfl
  rw [hz] at hf
  simp at hf

/-- C1 as amended: when the prefix is strictly shorter than the target
size (positive text budget), every iteration of the splitting loop moves
the next `start` strictly past the current `start` and at most to the
current `end`, and `_split_section` terminates (its loop finishes within
`len(content) + 1` iterations). -/
theorem c1_amended (cfg : Chunker) (hexd : List Char → List Char) (docId : List Char)
    (sec : DocSection) (pfx : List Char) (hlen : pfx.length < cfg.targetSize) :
    (split_section cfg hexd docId sec pfx).isSome ∧
      ∀ start, start < (pyStrip sec.content).length →
        start < nextStartFn cfg.overlap (pyStrip sec.content) start
            (splitEnd (cfg.targetSize - pfx.length) (pyStrip sec.content)
              (effectiveBoundaries (pyStrip sec.content)) start) ∧
          nextStartFn cfg.overlap (pyStrip sec.content) start
              (splitEnd (cfg.targetSize - pfx.length) (pyStrip sec.content)
                (effectiveBoundaries (pyStrip sec.content)) start) ≤
            splitEnd (cfg.targetSize - pfx.length) (pyStrip sec.content)
              (effectiveBoundaries (pyStrip sec.content)) start := by
  have hb : 1 ≤ cfg.targetSize - pfx.length := by omega
  constructor
  · obtain ⟨segs, hsegs, _⟩ := @splitSegs_cover (cfg.targetSize - pfx.length) cfg.overlap
      (pyStrip sec.content) (effectiveBoundaries (pyStrip sec.content)) hb
      ((pyStrip sec.content).length + 1) 0 (by omega)
    simp only [split_section, splitSectionFuel, hsegs]
    rfl
  · intro start hs
    exact ⟨nextStartFn_gt hb hs, nextStartFn_le⟩

/-- Witness for C1 at a concrete section and configuration. -/
theorem c1_witness :
    (split_section ⟨10, 5, true⟩ (fun _ => []) "d".data
      (DocSection.mk "T".data 1 "ab cd. ef gh.".data 1 1 []) "[T]\n".data).isSome :=
  (c1_amended ⟨10, 5, true⟩ (fun _ => []) "d".data
    (DocSection.mk "T".data 1 "ab cd. ef gh.".data 1 1 []) "[T]\n".data (by decide)).1

/-- C2 counterexample: for the section content `Aaaa. Bbbb.` with target
size 8, overlap 0 and empty prefix, the two split segments are adjacent
(the second starts exactly at the first's end, so no overlap is shared),
the emitted chunk texts are `Aaaa.` and `Bbbb.`, and their concatenation
drops the separator space of the original content: stripping makes exact
reconstruction impossible. -/
theorem c2_counterexample :
    splitSegs 8 0 "Aaaa. Bbbb.".data (effectiveBoundaries "Aaaa. Bbbb.".data) 12 0 =
        some [(0, 6), (6, 11)] ∧
      (split_section ⟨8, 0, true⟩ (fun _ => []) "d".data
          (DocSection.mk "S".data 1 "Aaaa. Bbbb.".data 1 1 []) []).map
          (List.map Chunk.text) = some ["Aaaa.".data, "Bbbb.".data] ∧
      "Aaaa.".data ++ "Bbbb.".data ≠ "Aaaa. Bbbb.".data := by
  refine ⟨by decide, by decide, by decide⟩

/-- C2 as amended: for an oversized section whose prefix is strictly
shorter than the target size, the raw `(start, end)` segments of the
splitting loop cover every character position of the trimmed content (no
character is dropped from the raw segments), and the emitted chunks are
exactly the prefix plus the whitespace-trim of each segment's slice, so
reconstruction is exact up to the whitespace trimmed at segment edges. -/
theorem c2_amended (cfg : Chunker) (hexd : List Char → List Char) (docId : List Char)
    (sec : DocSection) (pfx : List Char)
    (hlen : pfx.length < cfg.targetSize)
    (_hover : cfg.targetSize < pfx.length + (pyStrip sec.content).length) :
    ∃ segs,
      splitSegs (cfg.targetSize - pfx.length) cfg.overlap (pyStrip sec.content)
          (effectiveBoundaries (pyStrip sec.content)) ((pyStrip sec.content).length + 1) 0 =
        some segs ∧
      (∀ i, i < (pyStrip sec.content).length → ∃ p ∈ segs, p.1 ≤ i ∧ i < p.2) ∧
      split_section cfg hexd docId sec pfx =
        some (segs.filterMap (segChunk hexd docId sec.title sec.level sec.startPage
          sec.endPage pfx (pyStrip sec.content))) := by
  have hb : 1 ≤ cfg.targetSize - pfx.length := by omega
  obtain ⟨segs, hsegs, hcov⟩ := @splitSegs_cover (cfg.targetSize - pfx.length) cfg.overlap
    (pyStrip sec.content) (effectiveBoundaries (pyStrip sec.content)) hb
    ((pyStrip sec.content).length + 1) 0 (by omega)
  refine ⟨segs, hsegs, fun i hi => hcov i (Nat.zero_le _) hi, ?_⟩
  simp only [split_section, splitSectionFuel, hsegs]
  rfl

/-- Witness for C2 at a concrete oversized section. -/
theorem c2_witness :
    (split_section ⟨8, 3, true⟩ (fun _ => []) "d".data
        (DocSection.mk "S".data 1 "One. Two! Three.".data 1 1 []) "[S]\n".data).isSome := by
  obtain ⟨segs, h1, h2, h3⟩ := c2_amended ⟨8, 3, true⟩ (fun _ => []) "d".data
    (DocSection.mk "S".data 1 "One. Two! Three.".data 1 1 []) "[S]\n".data
    (by decide) (by decide)
  rw [h3]
  rfl

/-- C4 counterexample: for a leaf section whose contextual prefix is as
long as the target size (zero text budget) and whose trimmed content is
non-empty and oversized, `_split_section` never terminates, so the leaf
does not emit more than one chunk: the claim's second half is false for
this prefix and target size. -/
theorem c4_counterexample :
    (¬ ∃ fuel cs, splitSectionFuel ⟨5, 3, true⟩ (fun _ => []) "d".data
        (DocSection.mk "AB".data 1 "xyz yzw".data 1 1 []) "[AB]\n".data fuel = some cs) ∧
      leafChunks ⟨5, 3, true⟩ (fun _ => []) "d".data [] ["AB".data]
        (DocSection.mk "AB".data 1 "xyz yzw".data 1 1 []) = none := by
  have hnone : ∀ f, splitSegs 0 3 "xyz yzw".data
      (effectiveBoundaries "xyz yzw".data) f 0 = none := by
    intro f
    exact splitSegs_fix_none (by decide) (by decide) f
  constructor
  · rintro ⟨fuel, cs, hf⟩
    rw [@splitSectionFuel_none ⟨5, 3, true⟩ (fun _ => []) "d".data
      (DocSection.mk "AB".data 1 "xyz yzw".data 1 1 []) "[AB]\n".data fuel
      (hnone fuel)] at hf
    exact Option.noConfusion hf
  · simp only [leafChunks]
    rw [if_neg (by decide), if_neg (by decide)]
    exact @split_section_none ⟨5, 3, true⟩ (fun _ => []) "d".data
      (DocSection.mk "AB".data 1 "xyz yzw".data 1 1 [])
      (build_context_pfx [] ["AB".data]) (hnone 8)

/-- C4 as amended: for every leaf section with non-empty trimmed content,
if prefix plus content fit the target size then exactly one chunk is
emitted; if they exceed it and the prefix is strictly shorter than the
target size then more than one chunk is emitted. -/
theorem c4_amended (cfg : Chunker) (hexd : List Char → List Char)
    (docId docTitle : List Char) (hier : List (List Char)) (sec : DocSection)
    (hne : pyStrip sec.content ≠ []) :
    ((build_context_pfx docTitle hier).length + (pyStrip sec.content).length ≤
        cfg.targetSize →
      ∃ c, leafChunks cfg hexd docId docTitle hier sec = some [c]) ∧
    (cfg.targetSize <
        (build_context_pfx docTitle hier).length + (pyStrip sec.content).length →
      (build_context_pfx docTitle hier).length < cfg.targetSize →
      ∃ cs, leafChunks cfg hexd docId docTitle hier sec = some cs ∧ 1 < cs.length) := by
  constructor
  · intro hfits
    refine ⟨mkLeafChunk hexd docId sec (build_context_pfx docTitle hier ++
      pyStrip sec.content), ?_⟩
    simp only [leafChunks]
    rw [if_neg (by simpa [List.isEmpty_iff] using hne), if_pos hfits]
  · intro hover hpfx
    obtain ⟨cs, hcs, hlen2⟩ := split_section_two_chunks hne hpfx hover
    refine ⟨cs, ?_, hlen2⟩
    simp only [leafChunks]
    rw [if_neg (by simpa [List.isEmpty_iff] using hne), if_neg (by omega), hcs]

/-- Witness for C4 at a concrete oversized leaf section. -/
theorem c4_witness :
    ∃ cs, leafChunks ⟨6, 2, true⟩ (fun _ => []) "d".data [] ["T".data]
        (DocSection.mk "T".data 1 "Hello. World.".data 1 1 []) = some cs ∧
      1 < cs.length :=
  (c4_amended ⟨6, 2, true⟩ (fun _ => []) "d".data [] ["T".data]
    (DocSection.mk "T".data 1 "Hello. World.".data 1 1 []) (by decide)).2
    (by decide) (by decide)

/-- C6: `chunk_document` emits exactly one chunk per table regardless of
the table's formatted length, every table chunk carries structured data,
and every chunk of type `text` carries none. -/
theorem c6_table_chunks (cfg : Chunker) (hexd : List Char → List Char) (docId : List Char)
    (sections : List DocSection) (tables : List RegisterTable) (docTitle : List Char)
    (tp : Nat → Option Int) (L : List Chunk)
    (h : chunk_document cfg hexd docId sections tables docTitle tp = some L) :
    ∃ S, chunk_sections cfg hexd docId docTitle [] sections = some S ∧
      L = chunk_tables hexd docId docTitle tp tables ++ S ∧
      (chunk_tables hexd docId docTitle tp tables).length = tables.length ∧
      (∀ c ∈ chunk_tables hexd docId docTitle tp tables, c.structuredData.isSome) ∧
      (∀ c ∈ L, c.chunkType = "text".data → c.structuredData = none) := by
  simp only [chunk_document] at h
  rcases Option.map_eq_some'.mp h with ⟨S, hS, hL⟩
  refine ⟨S, hS, hL.symm, chunkTablesAux_length, ?_, ?_⟩
  · intro c hc
    obtain ⟨j, t, _, hct⟩ := chunkTablesAux_mem hc
    subst hct
    rfl
  · intro c hc htext
    rw [← hL] at hc
    rcases List.mem_append.mp hc with h1 | h2
    · obtain ⟨j, t, _, hct⟩ := chunkTablesAux_mem h1
      subst hct
      exact absurd htext (tableType_value_ne_text t.tableType)
    · exact (chunk_sections_mem hS h2).2.1

/-- Witness for C6 at a one-table document. -/
theorem c6_witness :
    (chunk_tables (fun _ => []) "d".data "".data (fun _ => none)
        [{ peripheral := "SPI".data, context := [], tableType := .registerMap,
           registers := [] }]).length = 1 := by
  obtain ⟨S, _, _, hlen, _, _⟩ := c6_table_chunks ⟨2500, 200, true⟩ (fun _ => []) "d".data []
    [{ peripheral := "SPI".data, context := [], tableType := .registerMap,
       registers := [] }] "".data (fun _ => none)
    (chunk_tables (fun _ => []) "d".data "".data (fun _ => none)
      [{ peripheral := "SPI".data, context := [], tableType := .registerMap,
         registers := [] }] ++ [])
    (by simp only [chunk_document, chunk_sections]; rfl)
  exact hlen

/-- C7: two calls of `chunk_document` on identical inputs give identical
chunk sequences, and every emitted chunk's id is the deterministic
function of the document id and the final chunk text (prefix included)
obtained by appending an underscore and the first 12 characters of the
text's hex digest; identical text therefore always yields an identical
id. -/
theorem c7_deterministic (cfg : Chunker) (hexd : List Char → List Char) (docId : List Char)
    (sections : List DocSection) (tables : List RegisterTable) (docTitle : List Char)
    (tp : Nat → Option Int) :
    chunk_document cfg hexd docId sections tables docTitle tp =
        chunk_document cfg hexd docId sections tables docTitle tp ∧
      ∀ L, chunk_document cfg hexd docId sections tables docTitle tp = some L →
        ∀ c ∈ L, c.id = docId ++ '_' :: (hexd c.text).take 12 := by
  refine ⟨rfl, ?_⟩
  intro L h c hc
  simp only [chunk_document] at h
  rcases Option.map_eq_some'.mp h with ⟨S, hS, hL⟩
  rw [← hL] at hc
  rcases List.mem_append.mp hc with h1 | h2
  · obtain ⟨j, t, _, hct⟩ := chunkTablesAux_mem h1
    subst hct
    rfl
  · exact (chunk_sections_mem hS h2).2.2

/-- Witness for C7: the id formula read off a concrete table chunk. -/
theorem c7_witness :
    (mkTableChunk (fun _ => "0123456789abcdef0123".data) "doc".data "".data (fun _ => none) 0
        { peripheral := "CAN".data, context := [], tableType := .memoryMap,
          registers := [] }).id =
      "doc".data ++ '_' :: ((fun _ : List Char => "0123456789abcdef0123".data)
        (mkTableChunk (fun _ => "0123456789abcdef0123".data) "doc".data "".data
          (fun _ => none) 0
          { peripheral := "CAN".data, context := [], tableType := .memoryMap,
            registers := [] }).text).take 12 :=
  (c7_deterministic ⟨2500, 200, true⟩ (fun _ => "0123456789abcdef0123".data) "doc".data []
    [{ peripheral := "CAN".data, context := [], tableType := .memoryMap, registers := [] }]
    "".data (fun _ => none)).2
    (chunk_tables (fun _ => "0123456789abcdef0123".data) "doc".data "".data (fun _ => none)
      [{ peripheral := "CAN".data, context := [], tableType := .memoryMap,
         registers := [] }] ++ [])
    (by simp only [chunk_document, chunk_sections]; rfl)
    _ (List.mem_append_left _ (List.mem_cons_self ..))

/-- C8: within one call table chunks precede text chunks; table chunks
follow the input order of the tables (the chunk at index `k` is built from
the table at index `k`); text chunks follow the depth-first left-to-right
leaf order of the section tree; and the split segments of one oversized
section are emitted with strictly increasing start offsets, the
left-to-right reading order of the source content. -/
theorem c8_ordering (cfg : Chunker) (hexd : List Char → List Char)
    (docId docTitle : List Char) (tp : Nat → Option Int) :
    (∀ sections tables L,
        chunk_document cfg hexd docId sections tables docTitle tp = some L →
        ∃ S, chunk_sections cfg hexd docId docTitle [] sections = some S ∧
          L = chunk_tables hexd docId docTitle tp tables ++ S) ∧
      (∀ (tables : List RegisterTable) (k : Nat), k < tables.length →
        (chunk_tables hexd docId docTitle tp tables).get? k =
          (tables.get? k).map (fun t => mkTableChunk hexd docId docTitle tp k t)) ∧
      (∀ anc ss, chunk_sections cfg hexd docId docTitle anc ss =
        optConcatMap (fun p => leafChunks cfg hexd docId docTitle p.1 p.2)
          (dfsLeaves anc ss)) ∧
      (∀ budget ovl content bnds fuel start segs,
        splitSegs budget ovl content bnds fuel start = some segs →
        List.Chain' (fun a b => a.1 < b.1) segs) := by
  refine ⟨?_, ?_, ?_, ?_⟩
  · intro sections tables L h
    simp only [chunk_document] at h
    rcases Option.map_eq_some'.mp h with ⟨S, hS, hL⟩
    exact ⟨S, hS, hL.symm⟩
  · intro tables k _
    have h0 := @chunkTablesAux_get? hexd docId docTitle tp 0 k tables
    simpa using h0
  · intro anc ss
    exact chunk_sections_eq_dfs cfg hexd docId docTitle anc ss
  · intro budget ovl content bnds fuel start segs h
    exact (splitSegs_chain h).1

/-- Witness for C8: the split segments of a concrete oversized section are
in strictly increasing start order. -/
theorem c8_witness :
    List.Chain' (fun a b : Nat × Nat => a.1 < b.1) [(0, 4), (4, 8), (8, 11)] :=
  (c8_ordering ⟨2500, 200, true⟩ (fun _ => []) "d".data "".data (fun _ => none)).2.2.2
    4 0 "Aa. Bb. Cc.".data (effectiveBoundaries "Aa. Bb. Cc.".data) 12 0
    [(0, 4), (4, 8), (8, 11)] (by decide)

/-- `extendRows` returns the maximum bottom of the LAST row accepted by
`rowOkB`, or the initial accumulator when no row is accepted. -/
theorem extendRows_eq (x0 x1 : ℚ) (numCols : Nat) :
    ∀ (rs : List (List TextBlock)) (y1 : ℚ),
      extendRows x0 x1 numCols rs y1 =
        ((rs.takeWhile (rowOkB x0 x1 numCols)).map maxY1).getLastD y1 := by
  intro rs
  induction rs with
  | nil => intro y1; rfl
  | cons row rest ih =>
    intro y1
    rw [extendRows]
    by_cases h1 : row.length < max 2 (numCols - 2)
    · rw [if_pos h1, List.takeWhile_cons_of_neg]
      · rfl
      · intro hok
        simp only [rowOkB, Bool.and_eq_true, decide_eq_true_eq] at hok
        exact absurd hok.1.1 (by omega)
    · rw [if_neg h1]
      by_cases h2 : 50 < |minX0 row - x0| ∨ 50 < |maxX1 row - x1|
      · rw [if_pos h2, List.takeWhile_cons_of_neg]
        · rfl
        · intro hok
          simp only [rowOkB, Bool.and_eq_true, decide_eq_true_eq] at hok
          rcases h2 with ha | hb
          · exact absurd hok.1.2 (not_le.mpr ha)
          · exact absurd hok.2 (not_le.mpr hb)
      · rw [if_neg h2, ih]
        rw [List.takeWhile_cons_of_pos, List.map_cons, List.getLastD_cons]
        simp only [rowOkB, Bool.and_eq_true, decide_eq_true_eq]
        push_neg at h2
        exact ⟨⟨not_lt.mp h1, h2.1⟩, h2.2⟩

/-- C3 (amended): `_extract_table_region` agrees everywhere with the
spec-side extractor whose region bottom is the maximum bottom of the LAST
included row (`y1` is overwritten by each scanned row), the inclusion
condition, the remaining bbox coordinates and the below-20-units discard
being exactly as claimed. -/
theorem c3_amended (page : Page) (rows : List (List TextBlock)) (idx : Nat) :
    extract_table_region page rows idx = specExtractRegionLast page rows idx := by
  simp only [extract_table_region, specExtractRegionLast]
  cases hdrop : rows.drop idx with
  | nil => rfl
  | cons headerRow rest =>
    dsimp only
    rw [extendRows_eq, List.getLastD_eq_getLast?]
    cases hlast : ((rest.takeWhile (rowOkB (minX0 headerRow) (maxX1 headerRow)
        headerRow.length)).map maxY1).getLast? with
    | none =>
      rw [Option.getD_none, if_pos (by rw [sub_self]; norm_num)]
    | some m =>
      rfl

/-- C3 is refuted on this input: the source overwrites `y1` with each
scanned row's bottom instead of keeping a running maximum, so a tall row
followed by a shorter row gives a region bottom of 50 where the claimed
running maximum gives 100. -/
theorem c3_counterexample :
    (extract_table_region ⟨(0 : Int), []⟩
        [[⟨[], 0, 0, 30, 5⟩, ⟨[], 0, 0, 30, 5⟩],
         [⟨[], 0, 10, 30, 100⟩, ⟨[], 0, 10, 30, 100⟩],
         [⟨[], 0, 40, 30, 50⟩, ⟨[], 0, 40, 30, 50⟩]] 0).map TableRegion.y1 =
        some (50 : ℚ) ∧
      (specExtractRegion ⟨(0 : Int), []⟩
        [[⟨[], 0, 0, 30, 5⟩, ⟨[], 0, 0, 30, 5⟩],
         [⟨[], 0, 10, 30, 100⟩, ⟨[], 0, 10, 30, 100⟩],
         [⟨[], 0, 40, 30, 50⟩, ⟨[], 0, 40, 30, 50⟩]] 0).map TableRegion.y1 =
        some (100 : ℚ) := by
  constructor
  · norm_num [extract_table_region, extendRows, minX0, maxX1, minY0, maxY1, List.foldl,
      min_self, max_self]
  · norm_num [specExtractRegion, rowOkB, minX0, maxX1, minY0, maxY1, List.foldl,
      min_self, max_self, List.takeWhile, List.max?]

end Mcp
